import Mathlib

/-!
Verification of the unified-diff parser `parse_diff` from
`src/prtopdf/formatters.py` (repository PRtoPDF).

The parser is embedded shallowly: the dataclasses `DiffLine`, `DiffHunk`,
`ParsedDiff` become structures, the regex
`@@ -(\d+),?(\d*) \+(\d+),?(\d*) @@` (anchored at the start by `re.match`,
trailing text ignored) becomes the deterministic matcher `matchHunkHeader`
(the pattern's greedy digit runs followed by non-digit literals make
backtracking inert, so maximal-munch scanning is exact; `\d` is modelled as
the ASCII digits), the body of the inner `while` loop becomes `classifyLine`
and `processHunkLines`, and the outer `while` loop becomes the fuel-indexed
`parseLoop` (each outer iteration consumes at least one line, so
`lines.length` fuel is always sufficient; this is proved below).

Python string operations are expressed on the character list `String.data`
so that everything reduces structurally: `line.startswith(c)` for a
one-character `c` is a head-character match, `line[1:]` is the tail, and
`patch.split("\n")` is `splitLines`.
-/

namespace PRtoPDF

/-- `DiffLine` dataclass: a single line in a diff.
`type` is one of "context", "addition", "deletion". -/
structure DiffLine where
  type : String
  old_line_num : Option Nat
  new_line_num : Option Nat
  content : String
deriving DecidableEq, Repr

/-- `DiffHunk` dataclass: a hunk (section) of changes in a diff. -/
structure DiffHunk where
  old_start : Nat
  old_count : Nat
  new_start : Nat
  new_count : Nat
  lines : List DiffLine
deriving DecidableEq, Repr

/-- `ParsedDiff` dataclass: a parsed diff for a file. -/
structure ParsedDiff where
  filename : String
  hunks : List DiffHunk
deriving DecidableEq, Repr

/-- `patch.split("\n")`: Python's `str.split` with an explicit separator —
splitting at every newline, keeping empty segments, `[""]` on empty input. -/
def splitLines : List Char → List (List Char)
  | [] => [[]]
  | c :: rest =>
    if c = '\n' then [] :: splitLines rest
    else
      match splitLines rest with
      | [] => [[c]]
      | seg :: segs => (c :: seg) :: segs

/-- `line.startswith("@@")`. -/
def isHunkBoundary (l : String) : Bool :=
  match l.data with
  | '@' :: '@' :: _ => true
  | _ => false

/-- `int(...)` on a string of decimal digits. -/
def digitsToNat (ds : List Char) : Nat :=
  ds.foldl (fun acc c => acc * 10 + (c.toNat - '0'.toNat)) 0

/-- Maximal-munch scan of a run of decimal digits: the greedy `(\d*)` (and,
with a nonemptiness check at the use site, `(\d+)`) capture of the header
regex. Returns the captured digits and the remaining characters. -/
def takeDigits : List Char → List Char × List Char
  | [] => ([], [])
  | c :: rest =>
    if c.isDigit then
      ((c :: (takeDigits rest).1), (takeDigits rest).2)
    else ([], c :: rest)

/-- The optional comma `,?` of the header regex: consume one comma if it is
the next character. -/
def skipComma (cs : List Char) : List Char :=
  if cs.head? = some ',' then cs.tail else cs

/-- A literal character of the header regex: consume it or fail. -/
def expect (c : Char) (cs : List Char) : Option (List Char) :=
  match cs with
  | x :: r => if x = c then some r else none
  | [] => none

/-- `re.match(r"@@ -(\d+),?(\d*) \+(\d+),?(\d*) @@", line)` together with the
extraction of the four groups and the default-to-1 rule
(`int(match.group(2)) if match.group(2) else 1`, likewise for group 4).
`re.match` anchors at the start of the line only; any text after the second
`@@` is ignored. The pattern's greedy digit runs are each followed by a
non-digit literal, so backtracking is inert and maximal-munch scanning is
exact; `\d` is modelled as the ASCII digits. Returns
`some (old_start, old_count, new_start, new_count)` on a match. -/
def matchHunkHeader (line : String) : Option (Nat × Nat × Nat × Nat) :=
  (expect '@' line.data).bind fun r =>
  (expect '@' r).bind fun r =>
  (expect ' ' r).bind fun r =>
  (expect '-' r).bind fun r =>
  let t1 := takeDigits r
  if t1.1.isEmpty then none else
  let t2 := takeDigits (skipComma t1.2)
  (expect ' ' t2.2).bind fun r =>
  (expect '+' r).bind fun r =>
  let t3 := takeDigits r
  if t3.1.isEmpty then none else
  let t4 := takeDigits (skipComma t3.2)
  (expect ' ' t4.2).bind fun r =>
  (expect '@' r).bind fun r =>
  (expect '@' r).bind fun _ =>
  some (digitsToNat t1.1,
        if t2.1.isEmpty then 1 else digitsToNat t2.1,
        digitsToNat t3.1,
        if t4.1.isEmpty then 1 else digitsToNat t4.1)

/-- One iteration of the inner loop body of `parse_diff`: classify a single
content line given the current `old_line`/`new_line` counters; returns the
emitted `DiffLine` (if any — `\`-lines emit nothing) and the updated
counters. The branches are Python's `if`/`elif` chain in order: empty line,
`+`, `-`, space, backslash, defensive fallback. `startswith` with a
one-character argument is a head-character test, and `content_line[1:]` is
the tail of the character list. -/
def classifyLine (l : String) (old new : Nat) :
    Option DiffLine × Nat × Nat :=
  if l = "" then
    (some ⟨"context", some old, some new, ""⟩, old + 1, new + 1)
  else if l.data.head? = some '+' then
    (some ⟨"addition", none, some new, String.mk l.data.tail⟩, old, new + 1)
  else if l.data.head? = some '-' then
    (some ⟨"deletion", some old, none, String.mk l.data.tail⟩, old + 1, new)
  else if l.data.head? = some ' ' then
    (some ⟨"context", some old, some new, String.mk l.data.tail⟩,
     old + 1, new + 1)
  else if l.data.head? = some '\\' then
    (none, old, new)
  else
    (some ⟨"context", some old, some new, l⟩, old + 1, new + 1)

/-- The inner `while i < len(lines) and not lines[i].startswith("@@")` loop:
collects the `DiffLine`s of one hunk, threading the `old_line`/`new_line`
counters, and returns `(hunk_lines, old_line, new_line, remaining lines)`. -/
def processHunkLines : List String → Nat → Nat →
    List DiffLine × Nat × Nat × List String
  | [], old, new => ([], old, new, [])
  | l :: rest, old, new =>
    if isHunkBoundary l then ([], old, new, l :: rest)
    else
      let c := classifyLine l old new
      let p := processHunkLines rest c.2.1 c.2.2
      ((match c.1 with
        | some dl => dl :: p.1
        | none => p.1), p.2)

/-- The outer `while i < len(lines)` loop of `parse_diff`, fuel-indexed.
Each outer iteration consumes at least one line, so `ls.length` fuel always
suffices (proved in `parseLoop_fuel_irrel` below). -/
def parseLoop : Nat → List String → List DiffHunk
  | _, [] => []
  | 0, _ :: _ => []
  | fuel + 1, l :: rest =>
    if isHunkBoundary l then
      match matchHunkHeader l with
      | some (os, oc, ns, nc) =>
        let p := processHunkLines rest os ns
        ⟨os, oc, ns, nc, p.1⟩ :: parseLoop fuel p.2.2.2
      | none => parseLoop fuel rest
    else parseLoop fuel rest

/-- `parse_diff(patch, filename)` for a string patch. Python's `if not patch`
guard is the emptiness test. -/
def parse_diff (patch : String) (filename : String) : ParsedDiff :=
  if patch = "" then ⟨filename, []⟩
  else
    let lines := (splitLines patch.data).map String.mk
    ⟨filename, parseLoop lines.length lines⟩

/-- `parse_diff` at the call boundary where the patch field may be absent
(`None`): Python's `if not patch` treats `None` exactly like `""`. -/
def parse_diff_opt (patch : Option String) (filename : String) : ParsedDiff :=
  match patch with
  | none => ⟨filename, []⟩
  | some p => parse_diff p filename

theorem expect_eq_some {c : Char} {cs r : List Char}
    (h : expect c cs = some r) : cs = c :: r := by
  match cs with
  | [] => exact absurd h (by simp [expect])
  | x :: xs =>
    simp only [expect] at h
    by_cases hx : x = c
    · rw [if_pos hx] at h
      rw [hx, Option.some_inj.mp h]
    · rw [if_neg hx] at h
      exact absurd h (by simp)

theorem isHunkBoundary_of_matchHunkHeader {l : String} {q : Nat × Nat × Nat × Nat}
    (h : matchHunkHeader l = some q) : isHunkBoundary l = true := by
  unfold matchHunkHeader at h
  rcases Option.bind_eq_some.mp h with ⟨r1, h1, h'⟩
  rcases Option.bind_eq_some.mp h' with ⟨r2, h2, -⟩
  unfold isHunkBoundary
  rw [expect_eq_some h1, expect_eq_some h2]
  rfl

theorem matchHunkHeader_eq_none {l : String}
    (h : isHunkBoundary l = false) : matchHunkHeader l = none := by
  cases hm : matchHunkHeader l with
  | none => rfl
  | some q => rw [isHunkBoundary_of_matchHunkHeader hm] at h; exact absurd h (by simp)

/-- The inner loop consumes an initial segment of non-`@@` lines and leaves
the rest untouched. -/
theorem processHunkLines_consumed : ∀ (ls : List String) (o n : Nat),
    ∃ pre, ls = pre ++ (processHunkLines ls o n).2.2.2 ∧
      ∀ l ∈ pre, isHunkBoundary l = false := by
  intro ls
  induction ls with
  | nil => exact fun o n => ⟨[], rfl, by simp⟩
  | cons l rest ih =>
    intro o n
    by_cases hb : isHunkBoundary l
    · exact ⟨[], by simp [processHunkLines, hb], by simp⟩
    · obtain ⟨pre, hpre, hnb⟩ :=
        ih (classifyLine l o n).2.1 (classifyLine l o n).2.2
      refine ⟨l :: pre, ?_, ?_⟩
      · simp only [processHunkLines, hb, Bool.false_eq_true, if_false,
          List.cons_append, List.cons.injEq, true_and]
        exact hpre
      · intro x hx
        rcases List.mem_cons.mp hx with rfl | hx
        · simpa using hb
        · exact hnb x hx

theorem processHunkLines_rest_suffix (ls : List String) (o n : Nat) :
    (processHunkLines ls o n).2.2.2 <:+ ls := by
  obtain ⟨pre, hpre, -⟩ := processHunkLines_consumed ls o n
  exact ⟨pre, hpre.symm⟩

theorem processHunkLines_rest_length (ls : List String) (o n : Nat) :
    (processHunkLines ls o n).2.2.2.length ≤ ls.length :=
  (processHunkLines_rest_suffix ls o n).length_le

/-- One more unit of fuel than the number of remaining lines changes
nothing: each outer-loop iteration consumes at least one line. -/
theorem parseLoop_succ : ∀ (fuel : Nat) (ls : List String),
    ls.length ≤ fuel → parseLoop (fuel + 1) ls = parseLoop fuel ls := by
  intro fuel
  induction fuel with
  | zero =>
    intro ls h
    rw [List.length_eq_zero.mp (Nat.le_zero.mp h)]
    rfl
  | succ m ih =>
    intro ls h
    match ls with
    | [] => rfl
    | l :: rest =>
      have hr : rest.length ≤ m := Nat.le_of_succ_le_succ (by simpa using h)
      by_cases hb : isHunkBoundary l
      · cases hm : matchHunkHeader l with
        | none => simp only [parseLoop, hb, if_true, hm]; exact ih rest hr
        | some q =>
          obtain ⟨os, oc, ns, nc⟩ := q
          simp only [parseLoop, hb, if_true, hm]
          rw [ih _ (le_trans (processHunkLines_rest_length rest os ns) hr)]
      · simp only [parseLoop, hb, Bool.false_eq_true, if_false]
        exact ih rest hr

/-- Any amount of fuel at least the number of lines computes the same
hunks: the outer loop of `parse_diff` terminates. -/
theorem parseLoop_of_le : ∀ (fuel : Nat) (ls : List String),
    ls.length ≤ fuel → parseLoop fuel ls = parseLoop ls.length ls := by
  intro fuel
  induction fuel with
  | zero =>
    intro ls h
    rw [Nat.le_antisymm h (Nat.zero_le _)]
  | succ m ih =>
    intro ls h
    rcases Nat.lt_or_ge ls.length (m + 1) with hlt | hge
    · have h' : ls.length ≤ m := Nat.lt_succ_iff.mp hlt
      rw [parseLoop_succ m ls h', ih ls h']
    · rw [Nat.le_antisymm h hge]

/-- Every line of a hunk collected by the inner loop originates from some
input line that is not a hunk boundary. -/
theorem processHunkLines_line_origin : ∀ (ls : List String) (o n : Nat)
    (dl : DiffLine), dl ∈ (processHunkLines ls o n).1 →
    ∃ l ∈ ls, isHunkBoundary l = false ∧
      ∃ o' n', (classifyLine l o' n').1 = some dl := by
  intro ls
  induction ls with
  | nil => intro o n dl h; simp [processHunkLines] at h
  | cons l rest ih =>
    intro o n dl h
    by_cases hb : isHunkBoundary l
    · simp [processHunkLines, hb] at h
    · simp only [processHunkLines, hb, Bool.false_eq_true, if_false] at h
      rcases hc : (classifyLine l o n).1 with - | dl'
      · rw [hc] at h
        obtain ⟨x, hx, hbx, hcx⟩ :=
          ih (classifyLine l o n).2.1 (classifyLine l o n).2.2 dl h
        exact ⟨x, List.mem_cons_of_mem l hx, hbx, hcx⟩
      · rw [hc] at h
        rcases List.mem_cons.mp h with rfl | h'
        · exact ⟨l, List.mem_cons_self l rest, by simpa using hb, o, n, hc⟩
        · obtain ⟨x, hx, hbx, hcx⟩ :=
            ih (classifyLine l o n).2.1 (classifyLine l o n).2.2 dl h'
          exact ⟨x, List.mem_cons_of_mem l hx, hbx, hcx⟩

/-- Every line of every hunk produced by the outer loop originates from some
input line that is not a hunk boundary. -/
theorem parseLoop_line_origin : ∀ (fuel : Nat) (ls : List String)
    (h : DiffHunk) (dl : DiffLine), h ∈ parseLoop fuel ls → dl ∈ h.lines →
    ∃ l ∈ ls, isHunkBoundary l = false ∧
      ∃ o' n', (classifyLine l o' n').1 = some dl := by
  intro fuel
  induction fuel with
  | zero =>
    intro ls h dl hh
    match ls with
    | [] => simp [parseLoop] at hh
    | _ :: _ => simp [parseLoop] at hh
  | succ m ih =>
    intro ls h dl hh hdl
    match ls with
    | [] => simp [parseLoop] at hh
    | l :: rest =>
      by_cases hb : isHunkBoundary l
      · rcases hm : matchHunkHeader l with - | q
        · simp only [parseLoop, hb, if_true, hm] at hh
          obtain ⟨x, hx, hrest⟩ := ih rest h dl hh hdl
          exact ⟨x, List.mem_cons_of_mem l hx, hrest⟩
        · obtain ⟨os, oc, ns, nc⟩ := q
          simp only [parseLoop, hb, if_true, hm] at hh
          rcases List.mem_cons.mp hh with rfl | hh'
          · obtain ⟨x, hx, hbx, hcx⟩ :=
              processHunkLines_line_origin rest os ns dl hdl
            exact ⟨x, List.mem_cons_of_mem l hx, hbx, hcx⟩
          · obtain ⟨x, hx, hrest⟩ := ih _ h dl hh' hdl
            have hsub : x ∈ rest :=
              (processHunkLines_rest_suffix rest os ns).mem hx
            exact ⟨x, List.mem_cons_of_mem l hsub, hrest⟩
      · simp only [parseLoop, hb, Bool.false_eq_true, if_false] at hh
        obtain ⟨x, hx, hrest⟩ := ih rest h dl hh hdl
        exact ⟨x, List.mem_cons_of_mem l hx, hrest⟩

/-- With sufficient fuel, the four header fields of the produced hunks are
exactly the successful header matches of the input lines, in input order. -/
theorem parseLoop_headers : ∀ (fuel : Nat) (ls : List String),
    ls.length ≤ fuel →
    (parseLoop fuel ls).map
        (fun h => (h.old_start, h.old_count, h.new_start, h.new_count))
      = ls.filterMap matchHunkHeader := by
  intro fuel
  induction fuel with
  | zero =>
    intro ls h
    rw [List.length_eq_zero.mp (Nat.le_zero.mp h)]
    rfl
  | succ m ih =>
    intro ls h
    match ls with
    | [] => rfl
    | l :: rest =>
      have hr : rest.length ≤ m := Nat.le_of_succ_le_succ (by simpa using h)
      by_cases hb : isHunkBoundary l
      · rcases hm : matchHunkHeader l with - | q
        · simp only [parseLoop, hb, if_true, hm, List.filterMap_cons_none hm]
          exact ih rest hr
        · obtain ⟨os, oc, ns, nc⟩ := q
          simp only [parseLoop, hb, if_true, hm, List.map_cons]
          obtain ⟨pre, hpre, hnb⟩ := processHunkLines_consumed rest os ns
          rw [ih _ (le_trans (processHunkLines_rest_length rest os ns) hr)]
          conv_rhs => rw [hpre]
          rw [List.filterMap_cons_some hm, List.filterMap_append]
          have hnone : pre.filterMap matchHunkHeader = [] := by
            rw [List.filterMap_eq_nil_iff]
            exact fun a ha => matchHunkHeader_eq_none (hnb a ha)
          rw [hnone, List.nil_append]
      · have hm : matchHunkHeader l = none := matchHunkHeader_eq_none (by simpa using hb)
        simp only [parseLoop, hb, Bool.false_eq_true, if_false,
          List.filterMap_cons_none hm]
        exact ih rest hr

/-- Every hunk produced by the outer loop has its lines computed by the
inner loop on a suffix of the input, with the line counters seeded from the
hunk's own declared start positions. -/
theorem parseLoop_hunk_lines : ∀ (fuel : Nat) (ls : List String)
    (h : DiffHunk), h ∈ parseLoop fuel ls →
    ∃ sub, sub <:+ ls ∧
      h.lines = (processHunkLines sub h.old_start h.new_start).1 := by
  intro fuel
  induction fuel with
  | zero =>
    intro ls h hh
    match ls with
    | [] => simp [parseLoop] at hh
    | _ :: _ => simp [parseLoop] at hh
  | succ m ih =>
    intro ls h hh
    match ls with
    | [] => simp [parseLoop] at hh
    | l :: rest =>
      by_cases hb : isHunkBoundary l
      · rcases hm : matchHunkHeader l with - | q
        · simp only [parseLoop, hb, if_true, hm] at hh
          obtain ⟨sub, hsub, hlines⟩ := ih rest h hh
          exact ⟨sub, hsub.trans (List.suffix_cons l rest), hlines⟩
        · obtain ⟨os, oc, ns, nc⟩ := q
          simp only [parseLoop, hb, if_true, hm] at hh
          rcases List.mem_cons.mp hh with rfl | hh'
          · exact ⟨rest, List.suffix_cons l rest, rfl⟩
          · obtain ⟨sub, hsub, hlines⟩ := ih _ h hh'
            exact ⟨sub,
              (hsub.trans (processHunkLines_rest_suffix rest os ns)).trans
                (List.suffix_cons l rest), hlines⟩
      · simp only [parseLoop, hb, Bool.false_eq_true, if_false] at hh
        obtain ⟨sub, hsub, hlines⟩ := ih rest h hh
        exact ⟨sub, hsub.trans (List.suffix_cons l rest), hlines⟩

/-- The greedy digit scan stops exactly at the first non-digit. -/
theorem takeDigits_append (d : List Char) (c : Char) (r : List Char)
    (hd : ∀ x ∈ d, x.isDigit = true) (hc : c.isDigit = false) :
    takeDigits (d ++ c :: r) = (d, c :: r) := by
  induction d with
  | nil => simp [takeDigits, hc]
  | cons x xs ih =>
    have hx : x.isDigit = true := hd x (List.mem_cons_self ..)
    have ih' := ih fun a ha => hd a (List.mem_cons_of_mem x ha)
    simp [takeDigits, hx, ih']

/-! ### The claims -/

/-- C2: the single-hunk patch `@@ -1,3 +1,4 @@\n a\n+b\n c` parses, for any
filename, to exactly one hunk with `old_start=1, old_count=3, new_start=1,
new_count=4` and the three lines context "a" (old 1, new 1), addition "b"
(old absent, new 2), context "c" (old 2, new 3), in order. -/
theorem spec_C2 (filename : String) :
    parse_diff "@@ -1,3 +1,4 @@\n a\n+b\n c" filename =
      ⟨filename, [⟨1, 3, 1, 4,
        [⟨"context", some 1, some 1, "a"⟩,
         ⟨"addition", none, some 2, "b"⟩,
         ⟨"context", some 2, some 3, "c"⟩]⟩]⟩ := rfl

/-- C3: an empty or absent patch parses to a `ParsedDiff` with no hunks and
the filename passed through unchanged; the embedding returns an ordinary
`ParsedDiff`, so this case is not an error. -/
theorem spec_C3 (filename : String) :
    parse_diff "" filename = ⟨filename, []⟩ ∧
    parse_diff_opt none filename = ⟨filename, []⟩ ∧
    parse_diff_opt (some "") filename = ⟨filename, []⟩ :=
  ⟨rfl, rfl, rfl⟩

/-- C4: `parse_diff` terminates normally on every input and returns a
`ParsedDiff`: the outer loop's result is independent of any sufficient fuel
bound (so the `while` loop terminates), and for every patch and filename
the function yields a `ParsedDiff` carrying that filename — the embedding
is a total function with no error case. -/
theorem spec_C4 :
    (∀ (fuel : Nat) (ls : List String), ls.length ≤ fuel →
        parseLoop fuel ls = parseLoop ls.length ls) ∧
    (∀ patch filename, ∃ hs, parse_diff patch filename = ⟨filename, hs⟩) := by
  refine ⟨parseLoop_of_le, fun patch filename => ?_⟩
  unfold parse_diff
  split_ifs
  · exact ⟨[], rfl⟩
  · exact ⟨_, rfl⟩

theorem spec_C4_witness :
    parseLoop 7 ["@@ -1,1 +1,1 @@", " a"] =
      parseLoop (["@@ -1,1 +1,1 @@", " a"] : List String).length
        ["@@ -1,1 +1,1 @@", " a"] ∧
    ∃ hs, parse_diff "@@ garbage" "f" = ⟨"f", hs⟩ :=
  ⟨spec_C4.1 7 _ (by decide), spec_C4.2 "@@ garbage" "f"⟩

/-- C5: hunks appear in the output in the same order as their headers occur
among the input lines (the projected header fields of the output equal the
successful header matches of the input lines, in order), and each hunk's
lines are computed with the old/new counters seeded afresh from that hunk's
own declared `old_start`/`new_start`. -/
theorem spec_C5 (patch filename : String) :
    (parse_diff patch filename).hunks.map
        (fun h => (h.old_start, h.old_count, h.new_start, h.new_count))
      = ((splitLines patch.data).map String.mk).filterMap matchHunkHeader ∧
    ∀ h ∈ (parse_diff patch filename).hunks,
      ∃ sub, sub <:+ (splitLines patch.data).map String.mk ∧
        h.lines = (processHunkLines sub h.old_start h.new_start).1 := by
  constructor
  · unfold parse_diff
    split_ifs with hp
    · subst hp; rfl
    · exact parseLoop_headers _ _ le_rfl
  · intro h hh
    unfold parse_diff at hh
    split_ifs at hh with hp
    · simp at hh
    · exact parseLoop_hunk_lines _ _ h hh

theorem spec_C5_witness :
    ∃ sub,
      sub <:+ (splitLines ("@@ -3,1 +4,2 @@\n a\n+b").data).map String.mk ∧
      (⟨3, 1, 4, 2, [⟨"context", some 3, some 4, "a"⟩,
                     ⟨"addition", none, some 5, "b"⟩]⟩ : DiffHunk).lines =
        (processHunkLines sub 3 4).1 :=
  (spec_C5 "@@ -3,1 +4,2 @@\n a\n+b" "f").2
    ⟨3, 1, 4, 2, [⟨"context", some 3, some 4, "a"⟩,
                  ⟨"addition", none, some 5, "b"⟩]⟩ (by decide)

/-- C7: a nonempty line inside a hunk whose first character is none of `+`,
`-`, space or backslash (and which is not an `@@` hunk boundary) is emitted
as a context line whose content is the whole line, with no marker byte
stripped, and both counters advance by one; the parse continues normally. -/
theorem spec_C7 (l : String) (rest : List String) (old new : Nat)
    (h0 : l ≠ "") (hb : isHunkBoundary l = false)
    (h1 : l.data.head? ≠ some '+') (h2 : l.data.head? ≠ some '-')
    (h3 : l.data.head? ≠ some ' ') (h4 : l.data.head? ≠ some '\\') :
    processHunkLines (l :: rest) old new =
      ((⟨"context", some old, some new, l⟩ : DiffLine) ::
         (processHunkLines rest (old + 1) (new + 1)).1,
       (processHunkLines rest (old + 1) (new + 1)).2) := by
  have hc : classifyLine l old new =
      (some ⟨"context", some old, some new, l⟩, old + 1, new + 1) := by
    unfold classifyLine
    rw [if_neg h0, if_neg h1, if_neg h2, if_neg h3, if_neg h4]
  simp only [processHunkLines, hb, Bool.false_eq_true, if_false, hc]

theorem spec_C7_witness :
    processHunkLines ["xline"] 3 7 =
      ((⟨"context", some 3, some 7, "xline"⟩ : DiffLine) ::
         (processHunkLines [] (3 + 1) (7 + 1)).1,
       (processHunkLines [] (3 + 1) (7 + 1)).2) :=
  spec_C7 "xline" [] 3 7 (by decide) (by decide) (by decide) (by decide)
    (by decide) (by decide)

/-- C8: a line starting with `@@` that does not match the hunk-header
pattern never starts a hunk — the outer loop just consumes it and goes on —
and in particular well-formed content lines following such a line are not
collected into a phantom hunk (the example patch yields no hunks at all);
nothing raises. -/
theorem spec_C8 :
    (∀ (l : String) (rest : List String) (fuel : Nat),
        matchHunkHeader l = none →
        parseLoop (fuel + 1) (l :: rest) = parseLoop fuel rest) ∧
    (∀ filename, parse_diff "@@ garbage @@\n+added\n-removed" filename =
        ⟨filename, []⟩) := by
  constructor
  · intro l rest fuel hm
    by_cases hb : isHunkBoundary l
    · simp only [parseLoop, hb, if_true, hm]
    · simp only [parseLoop, hb, Bool.false_eq_true, if_false]
  · intro filename; rfl

theorem spec_C8_witness :
    parseLoop (1 + 1) ["@@ garbage @@", " x"] = parseLoop 1 [" x"] ∧
    parse_diff "@@ garbage @@\n+added\n-removed" "f" = ⟨"f", []⟩ :=
  ⟨spec_C8.1 "@@ garbage @@" [" x"] 1 (by decide), spec_C8.2 "f"⟩

/-- C6: whenever the comma-count suffix is absent on either side of an
otherwise well-formed hunk header, the corresponding count defaults to 1
(for arbitrary digit runs): absent on both sides, absent on the old side
only, and absent on the new side only; in particular
`@@ -1 +1 @@\n context-line` yields one hunk with both counts 1 and a
single context line at old 1, new 1. -/
theorem spec_C6 :
    (∀ (d1 d3 rest : List Char), d1 ≠ [] → d3 ≠ [] →
        (∀ c ∈ d1, c.isDigit = true) → (∀ c ∈ d3, c.isDigit = true) →
        matchHunkHeader
            ⟨'@' :: '@' :: ' ' :: '-' ::
              (d1 ++ ' ' :: '+' :: (d3 ++ ' ' :: '@' :: '@' :: rest))⟩
          = some (digitsToNat d1, 1, digitsToNat d3, 1)) ∧
    (∀ (d1 d3 d4 rest : List Char), d1 ≠ [] → d3 ≠ [] → d4 ≠ [] →
        (∀ c ∈ d1, c.isDigit = true) → (∀ c ∈ d3, c.isDigit = true) →
        (∀ c ∈ d4, c.isDigit = true) →
        matchHunkHeader
            ⟨'@' :: '@' :: ' ' :: '-' ::
              (d1 ++ ' ' :: '+' ::
                (d3 ++ ',' :: (d4 ++ ' ' :: '@' :: '@' :: rest)))⟩
          = some (digitsToNat d1, 1, digitsToNat d3, digitsToNat d4)) ∧
    (∀ (d1 d2 d3 rest : List Char), d1 ≠ [] → d2 ≠ [] → d3 ≠ [] →
        (∀ c ∈ d1, c.isDigit = true) → (∀ c ∈ d2, c.isDigit = true) →
        (∀ c ∈ d3, c.isDigit = true) →
        matchHunkHeader
            ⟨'@' :: '@' :: ' ' :: '-' ::
              (d1 ++ ',' :: (d2 ++ ' ' :: '+' ::
                (d3 ++ ' ' :: '@' :: '@' :: rest)))⟩
          = some (digitsToNat d1, digitsToNat d2, digitsToNat d3, 1)) ∧
    (∀ filename, parse_diff "@@ -1 +1 @@\n context-line" filename =
        ⟨filename,
         [⟨1, 1, 1, 1, [⟨"context", some 1, some 1, "context-line"⟩]⟩]⟩) := by
  refine ⟨?_, ?_, ?_, fun filename => rfl⟩
  · intro d1 d3 rest hne1 hne3 hd1 hd3
    obtain ⟨c1, cs1, rfl⟩ := List.exists_cons_of_ne_nil hne1
    obtain ⟨c3, cs3, rfl⟩ := List.exists_cons_of_ne_nil hne3
    have t1 := takeDigits_append (c1 :: cs1) ' '
      ('+' :: ((c3 :: cs3) ++ ' ' :: '@' :: '@' :: rest)) hd1 (by decide)
    have t3 := takeDigits_append (c3 :: cs3) ' ' ('@' :: '@' :: rest)
      hd3 (by decide)
    have s1 : takeDigits (' ' :: '+' :: c3 :: (cs3 ++ ' ' :: '@' :: '@' :: rest))
        = ([], ' ' :: '+' :: c3 :: (cs3 ++ ' ' :: '@' :: '@' :: rest)) := rfl
    have s2 : takeDigits (' ' :: '@' :: '@' :: rest)
        = ([], ' ' :: '@' :: '@' :: rest) := rfl
    simp only [List.cons_append] at t1 t3
    simp [matchHunkHeader, expect, skipComma, t1, t3, s1, s2]
  · intro d1 d3 d4 rest hne1 hne3 hne4 hd1 hd3 hd4
    obtain ⟨c1, cs1, rfl⟩ := List.exists_cons_of_ne_nil hne1
    obtain ⟨c3, cs3, rfl⟩ := List.exists_cons_of_ne_nil hne3
    obtain ⟨c4, cs4, rfl⟩ := List.exists_cons_of_ne_nil hne4
    have t1 := takeDigits_append (c1 :: cs1) ' '
      ('+' :: ((c3 :: cs3) ++ ',' :: ((c4 :: cs4) ++ ' ' :: '@' :: '@' :: rest)))
      hd1 (by decide)
    have t3 := takeDigits_append (c3 :: cs3) ','
      ((c4 :: cs4) ++ ' ' :: '@' :: '@' :: rest) hd3 (by decide)
    have t4 := takeDigits_append (c4 :: cs4) ' ' ('@' :: '@' :: rest)
      hd4 (by decide)
    have s1 : takeDigits
        (' ' :: '+' :: c3 :: (cs3 ++ ',' :: c4 :: (cs4 ++ ' ' :: '@' :: '@' :: rest)))
        = ([], ' ' :: '+' :: c3 ::
            (cs3 ++ ',' :: c4 :: (cs4 ++ ' ' :: '@' :: '@' :: rest))) := rfl
    simp only [List.cons_append] at t1 t3 t4
    simp [matchHunkHeader, expect, skipComma, t1, t3, t4, s1]
  · intro d1 d2 d3 rest hne1 hne2 hne3 hd1 hd2 hd3
    obtain ⟨c1, cs1, rfl⟩ := List.exists_cons_of_ne_nil hne1
    obtain ⟨c2, cs2, rfl⟩ := List.exists_cons_of_ne_nil hne2
    obtain ⟨c3, cs3, rfl⟩ := List.exists_cons_of_ne_nil hne3
    have t1 := takeDigits_append (c1 :: cs1) ','
      ((c2 :: cs2) ++ ' ' :: '+' :: ((c3 :: cs3) ++ ' ' :: '@' :: '@' :: rest))
      hd1 (by decide)
    have t2 := takeDigits_append (c2 :: cs2) ' '
      ('+' :: ((c3 :: cs3) ++ ' ' :: '@' :: '@' :: rest)) hd2 (by decide)
    have t3 := takeDigits_append (c3 :: cs3) ' ' ('@' :: '@' :: rest)
      hd3 (by decide)
    have s2 : takeDigits (' ' :: '@' :: '@' :: rest)
        = ([], ' ' :: '@' :: '@' :: rest) := rfl
    simp only [List.cons_append] at t1 t2 t3
    simp [matchHunkHeader, expect, skipComma, t1, t2, t3, s2]

theorem spec_C6_witness :
    matchHunkHeader
        ⟨'@' :: '@' :: ' ' :: '-' ::
          (['4'] ++ ' ' :: '+' :: (['7'] ++ ' ' :: '@' :: '@' :: []))⟩
      = some (digitsToNat ['4'], 1, digitsToNat ['7'], 1) ∧
    matchHunkHeader
        ⟨'@' :: '@' :: ' ' :: '-' ::
          (['1'] ++ ' ' :: '+' :: (['2'] ++ ',' :: (['3'] ++ ' ' :: '@' :: '@' :: [])))⟩
      = some (digitsToNat ['1'], 1, digitsToNat ['2'], digitsToNat ['3']) ∧
    matchHunkHeader
        ⟨'@' :: '@' :: ' ' :: '-' ::
          (['5'] ++ ',' :: (['6'] ++ ' ' :: '+' :: (['8'] ++ ' ' :: '@' :: '@' :: [])))⟩
      = some (digitsToNat ['5'], digitsToNat ['6'], digitsToNat ['8'], 1) :=
  ⟨spec_C6.1 ['4'] ['7'] [] (by decide) (by decide) (by decide) (by decide),
   spec_C6.2.1 ['1'] ['2'] ['3'] [] (by decide) (by decide) (by decide)
     (by decide) (by decide) (by decide),
   spec_C6.2.2.1 ['5'] ['6'] ['8'] [] (by decide) (by decide) (by decide)
     (by decide) (by decide) (by decide)⟩

/-- C9: when the final empty segment produced by a trailing newline is
reached while a hunk is still open (no intervening `@@` line), the inner
loop appends one extra context line with empty content, numbered with the
current counters, and advances both counters past it; concretely,
`@@ -1,1 +1,1 @@\n x\n` parses with a trailing empty context line at
old 2, new 2. -/
theorem spec_C9 :
    (∀ (ls : List String) (old new : Nat),
        (∀ l ∈ ls, isHunkBoundary l = false) →
        processHunkLines (ls ++ [""]) old new =
          ((processHunkLines ls old new).1 ++
             [⟨"context", some (processHunkLines ls old new).2.1,
               some (processHunkLines ls old new).2.2.1, ""⟩],
           (processHunkLines ls old new).2.1 + 1,
           (processHunkLines ls old new).2.2.1 + 1, [])) ∧
    (∀ filename, parse_diff "@@ -1,1 +1,1 @@\n x\n" filename =
        ⟨filename, [⟨1, 1, 1, 1,
          [⟨"context", some 1, some 1, "x"⟩,
           ⟨"context", some 2, some 2, ""⟩]⟩]⟩) := by
  constructor
  · intro ls
    induction ls with
    | nil => intro old new _; rfl
    | cons l rest ih =>
      intro old new hnb
      have hbl : isHunkBoundary l = false := hnb l (List.mem_cons_self ..)
      have ih' := ih (classifyLine l old new).2.1 (classifyLine l old new).2.2
        (fun a ha => hnb a (List.mem_cons_of_mem l ha))
      simp only [List.cons_append, processHunkLines, hbl, Bool.false_eq_true,
        if_false]
      cases (classifyLine l old new).1 with
      | none => exact ih'
      | some dl => simp [ih']
  · intro filename; rfl

theorem spec_C9_witness :
    processHunkLines ([" a"] ++ [""]) 4 9 =
      ((processHunkLines [" a"] 4 9).1 ++
         [⟨"context", some (processHunkLines [" a"] 4 9).2.1,
           some (processHunkLines [" a"] 4 9).2.2.1, ""⟩],
       (processHunkLines [" a"] 4 9).2.1 + 1,
       (processHunkLines [" a"] 4 9).2.2.1 + 1, []) :=
  spec_C9.1 [" a"] 4 9 (by decide)

/-- C10: any line starting with `@@` ends the collection of lines for the
open hunk even when it is not a valid header (the inner loop stops there
and emits nothing for it); no emitted `DiffLine` ever originates from an
`@@`-line; and a run of lines none of which matches the header pattern
contributes nothing to the output — the loop just steps over them. -/
theorem spec_C10 :
    (∀ (l : String) (rest : List String) (old new : Nat),
        isHunkBoundary l = true →
        processHunkLines (l :: rest) old new = ([], old, new, l :: rest)) ∧
    (∀ (fuel : Nat) (ls : List String) (h : DiffHunk) (dl : DiffLine),
        h ∈ parseLoop fuel ls → dl ∈ h.lines →
        ∃ l ∈ ls, isHunkBoundary l = false ∧
          ∃ o' n', (classifyLine l o' n').1 = some dl) ∧
    (∀ (mid rest : List String) (fuel : Nat),
        (∀ l ∈ mid, matchHunkHeader l = none) →
        parseLoop (mid.length + fuel) (mid ++ rest) = parseLoop fuel rest) := by
  refine ⟨?_, parseLoop_line_origin, ?_⟩
  · intro l rest old new hb
    simp [processHunkLines, hb]
  · intro mid
    induction mid with
    | nil => intro rest fuel _; simp
    | cons m ms ih =>
      intro rest fuel hnm
      have hm : matchHunkHeader m = none := hnm m (List.mem_cons_self ..)
      have hstep : (m :: ms).length + fuel = (ms.length + fuel) + 1 := by
        simp [Nat.succ_add]
      rw [hstep, List.cons_append]
      have ih' := ih rest fuel (fun a ha => hnm a (List.mem_cons_of_mem m ha))
      by_cases hb : isHunkBoundary m
      · simp only [parseLoop, hb, if_true, hm]
        exact ih'
      · simp only [parseLoop, hb, Bool.false_eq_true, if_false]
        exact ih'

theorem spec_C10_witness :
    processHunkLines ["@@ junk", " a"] 5 6 = ([], 5, 6, ["@@ junk", " a"]) ∧
    (∃ l ∈ (["@@ -1,1 +1,1 @@", " y"] : List String),
        isHunkBoundary l = false ∧
        ∃ o' n', (classifyLine l o' n').1 =
          some ⟨"context", some 1, some 1, "y"⟩) ∧
    parseLoop ((["@@ junk"] : List String).length + 1)
        (["@@ junk"] ++ [" z"]) = parseLoop 1 [" z"] :=
  ⟨spec_C10.1 "@@ junk" [" a"] 5 6 (by decide),
   spec_C10.2.1 2 ["@@ -1,1 +1,1 @@", " y"]
     ⟨1, 1, 1, 1, [⟨"context", some 1, some 1, "y"⟩]⟩
     ⟨"context", some 1, some 1, "y"⟩ (by decide) (by decide),
   spec_C10.2.2 ["@@ junk"] [" z"] 1 (by decide)⟩

end PRtoPDF
